import Mathlib

/-!
Verification of the trade-journal pipeline (`src/trade_journal.py`).

The Python program is shallowly embedded: pandas DataFrame columns become
fields of a `Trade` record, the mutable `self.df` becomes an explicit
`Journal` state, currency amounts become exact rationals (`ℚ`), and the
fallible cleaning/parsing steps return `Option`.  pandas `groupby` sorts
its keys ascending; `sort_values` is modelled as a stable sort
(`List.insertionSort`); `Series.mean()` on an empty series is NaN, modelled
as `Option.none`.
-/

namespace TradeJournal

open List (Perm)

open scoped List

/-! ### Digits and numeric text -/

/-- Decimal digit characters, by code point (48–57). -/
def isDig (c : Char) : Bool := decide (48 ≤ c.toNat ∧ c.toNat ≤ 57)

/-- Numeric value of a digit character. -/
def digitVal (c : Char) : Nat := c.toNat - 48

/-- Value of a most-significant-first digit string. -/
def digitsNat (cs : List Char) : Nat := cs.foldl (fun n c => n * 10 + digitVal c) 0

/-- Value of a fractional digit string (the part after the decimal point). -/
def fracVal (cs : List Char) : ℚ := (digitsNat cs : ℚ) / (10 : ℚ) ^ cs.length

/-- The digit character for `d % 10`-style values. -/
def digitChar (d : Nat) : Char :=
  match d with
  | 0 => '0' | 1 => '1' | 2 => '2' | 3 => '3' | 4 => '4'
  | 5 => '5' | 6 => '6' | 7 => '7' | 8 => '8' | _ => '9'

/-- Most-significant-first decimal digits of a natural number. -/
def natDigits (n : Nat) : List Char :=
  if _h : n < 10 then [digitChar n]
  else natDigits (n / 10) ++ [digitChar (n % 10)]
termination_by n
decreasing_by exact Nat.div_lt_self (by omega) (by omega)

/-! ### The P&L cleaning step (`load_data`, lines 31–37)

`df['P&L'].astype(str).str.replace('$','').str.replace(',','').astype(float)`:
every `'$'` is removed, then every `','`, and the remainder is parsed as a
float.  `pyFloat` models the sign/decimal grammar of Python's `float()`
constructor (exponent forms and `inf`/`nan`, which the data never contains,
are out of the modelled grammar and would be rejected). -/

/-- Unsigned part of the `float()` grammar: `digits`, `digits.digits*` or
`.digits`, rejecting anything else. -/
def pyUnsigned (cs : List Char) : Option ℚ :=
  let ip := cs.takeWhile isDig
  match cs.dropWhile isDig with
  | [] => if ip.isEmpty then none else some (digitsNat ip : ℚ)
  | c :: fp =>
      if c = '.' ∧ fp.all isDig ∧ ¬(ip.isEmpty ∧ fp.isEmpty) then
        some ((digitsNat ip : ℚ) + fracVal fp)
      else none

/-- Python `float()` on a character string: optional sign, then `pyUnsigned`. -/
def pyFloat (cs : List Char) : Option ℚ :=
  match cs with
  | [] => none
  | c :: rest =>
      if c = '-' then (pyUnsigned rest).map (fun q => -q)
      else if c = '+' then pyUnsigned rest
      else pyUnsigned (c :: rest)

/-- The cleaning step of `load_data`: strip every `'$'`, then every `','`,
then parse as a float. -/
def cleanPnl (s : String) : Option ℚ :=
  pyFloat ((s.data.filter (fun c => decide (c ≠ '$'))).filter (fun c => decide (c ≠ ',')))

/-! ### Spec-modelled currency formatting (for the round-trip property)

The formatter is not part of the source; the round-trip property of the
spec quantifies over rendered amounts. -/

/-- Two-digit rendering of a cents value `c < 100`. -/
def twoDigits (c : Nat) : List Char := [digitChar (c / 10), digitChar (c % 10)]

/-- Helper for comma grouping: input and output are least-significant-digit
first; a comma is inserted after every three digits. -/
def chunk3 (ds : List Char) : List Char :=
  if _h : ds.length ≤ 3 then ds
  else ds.take 3 ++ ',' :: chunk3 (ds.drop 3)
termination_by ds.length
decreasing_by simp; omega

/-- Modelled from the spec: `group_with_commas` — insert `','` thousands
separators into a most-significant-first digit string, grouping from the
right in threes. -/
def groupCommas (ds : List Char) : List Char := (chunk3 ds.reverse).reverse

/-- Modelled from the spec: render an amount of `v` cents as `"$"` followed
by the comma-grouped decimal representation (sign, grouped dollars, point,
two cent digits). -/
def formatDollar (v : ℤ) : String :=
  let n := v.natAbs
  let sign : List Char := if v < 0 then ['-'] else []
  String.mk ('$' :: sign ++ groupCommas (natDigits (n / 100)) ++ '.' :: twoDigits (n % 100))

/-! ### Timestamps (`pd.to_datetime` on the two time columns)

A timestamp is the parsed calendar fields; chronological order is the
lexicographic field order, realised by the injective (on in-range values)
key `tsKey`.  `dateOf` is `dt.date` (drop the time of day), `monthOf` is
`dt.to_period('M')` (drop the day as well). -/

structure Timestamp where
  year : Nat
  month : Nat
  day : Nat
  hour : Nat
  minute : Nat
  second : Nat
deriving DecidableEq

/-- Chronological sort key of a timestamp. -/
def tsKey (t : Timestamp) : Nat :=
  ((((t.year * 100 + t.month) * 100 + t.day) * 100 + t.hour) * 100 + t.minute) * 100 + t.second

/-- The calendar date of a timestamp (`dt.date`), encoded as a sort key. -/
def dateOf (t : Timestamp) : Nat := (t.year * 100 + t.month) * 100 + t.day

/-- The calendar month of a timestamp (`dt.to_period('M')`), encoded as a sort key. -/
def monthOf (t : Timestamp) : Nat := t.year * 100 + t.month

/-- Split a character list on a separator character. -/
def splitChar (sep : Char) : List Char → List (List Char)
  | [] => [[]]
  | c :: cs =>
      match splitChar sep cs with
      | [] => [[c]]
      | g :: gs => if c == sep then [] :: g :: gs else (c :: g) :: gs

/-- Parse a nonempty all-digit field. -/
def parseNatField (cs : List Char) : Option Nat :=
  if cs ≠ [] ∧ cs.all isDig then some (digitsNat cs) else none

/-- Parse `YYYY-MM-DD`, validating the month and day ranges. -/
def parseDatePart (cs : List Char) : Option (Nat × Nat × Nat) :=
  match splitChar '-' cs with
  | [ys, ms, ds] => do
      let y ← parseNatField ys
      let m ← parseNatField ms
      let d ← parseNatField ds
      if 1 ≤ m ∧ m ≤ 12 ∧ 1 ≤ d ∧ d ≤ 31 then some (y, m, d) else none
  | _ => none

/-- Parse `HH:MM` or `HH:MM:SS`, validating the field ranges. -/
def parseTimePart (cs : List Char) : Option (Nat × Nat × Nat) :=
  match splitChar ':' cs with
  | [hs, ms] => do
      let h ← parseNatField hs
      let mi ← parseNatField ms
      if h < 24 ∧ mi < 60 then some (h, mi, 0) else none
  | [hs, ms, ss] => do
      let h ← parseNatField hs
      let mi ← parseNatField ms
      let s ← parseNatField ss
      if h < 24 ∧ mi < 60 ∧ s < 60 then some (h, mi, s) else none
  | _ => none

/-- Model of `pd.to_datetime` on one value: an ISO date with an optional
time of day; anything else is unparseable and raises. -/
def parseTimestamp (s : String) : Option Timestamp :=
  match splitChar ' ' s.data with
  | [d] => (parseDatePart d).map (fun x => ⟨x.1, x.2.1, x.2.2, 0, 0, 0⟩)
  | [d, t] => do
      let x ← parseDatePart d
      let y ← parseTimePart t
      pure ⟨x.1, x.2.1, x.2.2, y.1, y.2.1, y.2.2⟩
  | _ => none

/-! ### The record set and the loader -/

/-- One raw CSV row, the five columns used (extra columns are ignored). -/
structure RawRow where
  entryTime : String
  exitTime : String
  pnl : String
  size : String
  symbol : String

/-- One cleaned trade record.  `exitDate` models the `'Exit Date'` column,
absent (`none`) until `best_performing_days` assigns it. -/
structure Trade where
  entryTime : Timestamp
  exitTime : Timestamp
  pnl : ℚ
  size : String
  symbol : String
  exitDate : Option Nat := none
deriving DecidableEq

/-- Clean one row, as `load_data` does column-wise: parse `Entry Time` and
`Exit Time`, clean `P&L`, pass `Size` and `Symbol` through. -/
def parseRow (r : RawRow) : Option Trade := do
  let et ← parseTimestamp r.entryTime
  let xt ← parseTimestamp r.exitTime
  let p ← cleanPnl r.pnl
  pure { entryTime := et, exitTime := xt, pnl := p, size := r.size, symbol := r.symbol }

/-- `load_data`'s cleaning of the whole table: every row must clean, any
failure raises and no record set is produced. -/
def loadData : List RawRow → Option (List Trade)
  | [] => some []
  | r :: rest =>
      match parseRow r, loadData rest with
      | some t, some ts => some (t :: ts)
      | _, _ => none

/-- The pipeline state: `self.df`, `None` until a successful load. -/
structure Journal where
  df : Option (List Trade)
deriving DecidableEq

/-- `TradeJournal.__init__`: no data loaded. -/
def initJournal : Journal := { df := none }

/-- `load_data` as a state transition: on any parse failure the exception
propagates before `self.df = df` runs, so the state is unchanged. -/
def loadJournal (j : Journal) (rows : List RawRow) : Journal :=
  match loadData rows with
  | none => j
  | some rs => { df := some rs }

/-! ### Aggregations

pandas `groupby` with default `sort=True` lists the distinct keys in
ascending order; `sort_values` is modelled as a stable sort. -/

/-- Total of the `P&L` column. -/
def sumPnl (rs : List Trade) : ℚ := (rs.map Trade.pnl).sum

/-- The distinct keys of a grouping column, in ascending order, as pandas
`groupby(sort=True)` produces them. -/
def sortedKeys {K : Type} [LinearOrder K] [DecidableEq K] (ks : List K) : List K :=
  List.insertionSort (· ≤ ·) ks.dedup

/-- Group the records by a key and total the `P&L` of each group
(`groupby(key)['P&L'].sum()`). -/
def groupSum {K : Type} [LinearOrder K] [DecidableEq K] (key : Trade → K) (rs : List Trade) :
    List (K × ℚ) :=
  (sortedKeys (rs.map key)).map
    (fun g => (g, sumPnl (rs.filter (fun t => decide (key t = g)))))

/-- The order `sort_values(ascending=False)` sorts by: larger totals first. -/
def descVal {K : Type} (a b : K × ℚ) : Prop := b.2 ≤ a.2

instance {K : Type} : DecidableRel (@descVal K) :=
  fun a b => inferInstanceAs (Decidable (b.2 ≤ a.2))

/-- The overall-stats block of `print_stats` (lines 53–58).  `avgPnl` is
`none` when there are no trades: pandas `mean()` over zero rows is NaN,
while `win_rate` is explicitly guarded to `0.0`. -/
structure Stats where
  total : Nat
  wins : Nat
  losses : Nat
  winRate : ℚ
  totalPnl : ℚ
  avgPnl : Option ℚ
deriving DecidableEq

/-- `print_stats`' computations. -/
def overallStats (rs : List Trade) : Stats :=
  let total := rs.length
  let wins := (rs.filter (fun t => decide (0 < t.pnl))).length
  let losses := (rs.filter (fun t => decide (t.pnl ≤ 0))).length
  { total := total
    wins := wins
    losses := losses
    winRate := if total ≠ 0 then (wins : ℚ) / (total : ℚ) * 100 else 0
    totalPnl := sumPnl rs
    avgPnl := if total = 0 then none else some (sumPnl rs / (total : ℚ)) }

/-- Ascending exit-time order, the key of `sort_values("Exit Time")`. -/
def exitLe (a b : Trade) : Prop := tsKey a.exitTime ≤ tsKey b.exitTime

instance : DecidableRel exitLe :=
  fun a b => inferInstanceAs (Decidable (tsKey a.exitTime ≤ tsKey b.exitTime))

instance : IsTotal Trade exitLe :=
  ⟨fun a b => Nat.le_total (tsKey a.exitTime) (tsKey b.exitTime)⟩

instance : IsTrans Trade exitLe :=
  ⟨fun _ _ _ => Nat.le_trans⟩

/-- `self.df.sort_values("Exit Time")`, modelled as a stable sort. -/
def sortByExit (rs : List Trade) : List Trade := List.insertionSort exitLe rs

/-- Pair each record's exit time with the running total of `P&L`. -/
def withCumsum (acc : ℚ) : List Trade → List (Timestamp × ℚ)
  | [] => []
  | t :: ts => (t.exitTime, acc + t.pnl) :: withCumsum (acc + t.pnl) ts

/-- The cumulative-P&L series of `plot_cumulative_pnl` (lines 71–72):
sort by exit time, then `cumsum` of `P&L`. -/
def cumulativeSeries (rs : List Trade) : List (Timestamp × ℚ) :=
  withCumsum 0 (sortByExit rs)

/-- `trade_size_summary`: group by `Size`, mean `P&L` and count per group. -/
def tradeSizeSummary (rs : List Trade) : List (String × ℚ × Nat) :=
  (sortedKeys (rs.map Trade.size)).map
    (fun g =>
      let grp := rs.filter (fun t => decide (t.size = g))
      (g, sumPnl grp / (grp.length : ℚ), grp.length))

/-- `monthly_performance_summary`: group by the month of `Exit Time`;
total, mean, count and win rate per month, months ascending. -/
def monthlyPerformanceSummary (rs : List Trade) : List (Nat × ℚ × ℚ × Nat × ℚ) :=
  (sortedKeys (rs.map (fun t => monthOf t.exitTime))).map
    (fun g =>
      let grp := rs.filter (fun t => decide (monthOf t.exitTime = g))
      (g, sumPnl grp, sumPnl grp / (grp.length : ℚ), grp.length,
        ((grp.filter (fun t => decide (0 < t.pnl))).length : ℚ) / (grp.length : ℚ) * 100))

/-- `best_performing_days` (lines 117–123): group by the date of
`Exit Time`, total per day, stable descending sort, first `top_n`. -/
def bestPerformingDays (rs : List Trade) (n : Nat := 5) : List (Nat × ℚ) :=
  (List.insertionSort descVal (groupSum (fun t => dateOf t.exitTime) rs)).take n

/-- `most_profitable_pairs` (lines 125–129): group by `Symbol`, total per
symbol, stable descending sort. -/
def mostProfitablePairs (rs : List Trade) : List (String × ℚ) :=
  List.insertionSort descVal (groupSum Trade.symbol rs)

/-! ### The stateful interface

Every reporting method first checks `self.df is None` and raises
`ValueError("Data not loaded yet.")` otherwise; `best_performing_days`
additionally assigns the derived `'Exit Date'` column in place. -/

inductive JError where
  | uninitialized
deriving DecidableEq

/-- The `if self.df is None: raise ValueError(...)` guard. -/
def require (j : Journal) : Except JError (List Trade) :=
  match j.df with
  | none => .error .uninitialized
  | some rs => .ok rs

/-- The in-place `'Exit Date'` column assignment of `best_performing_days`. -/
def setExitDate (t : Trade) : Trade := { t with exitDate := some (dateOf t.exitTime) }

def printSummaryJ (j : Journal) : Except JError (Unit × Journal) :=
  (require j).map (fun _ => ((), j))

def printStatsJ (j : Journal) : Except JError (Stats × Journal) :=
  (require j).map (fun rs => (overallStats rs, j))

def plotCumulativeJ (j : Journal) : Except JError (List (Timestamp × ℚ) × Journal) :=
  (require j).map (fun rs => (cumulativeSeries rs, j))

def tradeSizeSummaryJ (j : Journal) : Except JError (List (String × ℚ × Nat) × Journal) :=
  (require j).map (fun rs => (tradeSizeSummary rs, j))

def monthlySummaryJ (j : Journal) : Except JError (List (Nat × ℚ × ℚ × Nat × ℚ) × Journal) :=
  (require j).map (fun rs => (monthlyPerformanceSummary rs, j))

def bestDaysJ (j : Journal) (n : Nat := 5) : Except JError (List (Nat × ℚ) × Journal) :=
  (require j).map (fun rs => (bestPerformingDays rs n, { df := some (rs.map setExitDate) }))

def pairsJ (j : Journal) : Except JError (List (String × ℚ) × Journal) :=
  (require j).map (fun rs => (mostProfitablePairs rs, j))

/-! ### Reference definitions and concrete inputs used by the theorems -/

/-- The distinct keys of a list in first-seen order. -/
def firstSeenKeys {K : Type} [DecidableEq K] (ks : List K) : List K :=
  match ks with
  | [] => []
  | a :: l => a :: firstSeenKeys (l.filter (fun b => decide (b ≠ a)))
termination_by ks.length
decreasing_by
  simp only [List.length_cons]
  exact Nat.lt_succ_of_le (List.length_filter_le _ _)

/-- The claim's reading of `pair_ranking`, following the spec's words:
group by symbol in first-seen order, sum pnl per symbol, then a stable
descending sort by total (so ties keep first-seen symbol order). -/
def pairRankingSpec (rs : List Trade) : List (String × ℚ) :=
  List.insertionSort descVal
    ((firstSeenKeys (rs.map Trade.symbol)).map
      (fun s => (s, sumPnl (rs.filter (fun t => decide (t.symbol = s))))))

/-- A one-trade template for the ranking counterexample. -/
def c3trade (sym : String) : Trade :=
  { entryTime := ⟨2024, 1, 1, 9, 0, 0⟩, exitTime := ⟨2024, 1, 1, 10, 0, 0⟩,
    pnl := 1, size := "1", symbol := sym }

/-- Two records whose symbols first appear in the order B, A and whose
totals tie. -/
def c3rs : List Trade := [c3trade "B", c3trade "A"]

/-- A concrete row whose P&L text is not numeric after cleaning. -/
def c8row : RawRow :=
  { entryTime := "2024-01-01 09:00", exitTime := "2024-01-01 10:00",
    pnl := "oops", size := "1", symbol := "EURUSD" }

/-! ## Counting helpers -/

theorem decide_le_zero_eq (q : ℚ) : (decide (q ≤ 0)) = !(decide (0 < q)) := by
  by_cases h : q ≤ 0
  · simp [h, not_lt.mpr h]
  · simp [h, not_le.mp h]

/-! ## C1: behaviour on the empty record set -/

/-- C1: on the zero-record set the code yields total = wins = losses = 0,
win_rate = 0 and total_pnl = 0, every grouped operation yields the empty
sequence, but `avg_pnl` is the pandas mean over zero rows — NaN, modelled
`none` — not the explicit `0.0` the claim requires. -/
theorem c1_empty_evaluation :
    overallStats [] =
        { total := 0, wins := 0, losses := 0, winRate := 0, totalPnl := 0, avgPnl := none }
    ∧ tradeSizeSummary [] = []
    ∧ monthlyPerformanceSummary [] = []
    ∧ bestPerformingDays [] 5 = []
    ∧ mostProfitablePairs [] = [] :=
  ⟨rfl, rfl, rfl, rfl, rfl⟩

/-! ## C5: the overall-stats formulas -/

/-- C5: `wins` counts records with pnl > 0, `losses` counts records with
pnl ≤ 0, `win_rate` is wins/total·100 guarded to 0 on an empty set,
`total_pnl` is the sum of pnl, and `avg_pnl` is the arithmetic mean
(undefined — `none` — exactly when there are no records). -/
theorem c5_overall_stats_formulas (rs : List Trade) :
    (overallStats rs).total = rs.length
    ∧ (overallStats rs).wins = rs.countP (fun t => decide (0 < t.pnl))
    ∧ (overallStats rs).losses = rs.countP (fun t => decide (t.pnl ≤ 0))
    ∧ (overallStats rs).winRate =
        (if rs.length = 0 then 0
         else ((rs.countP (fun t => decide (0 < t.pnl)) : ℚ) / (rs.length : ℚ)) * 100)
    ∧ (overallStats rs).totalPnl = rs.foldl (fun a t => a + t.pnl) 0
    ∧ (overallStats rs).avgPnl =
        (if rs.length = 0 then none
         else some ((rs.map Trade.pnl).sum / (rs.length : ℚ))) := by
  refine ⟨rfl, ?_, ?_, ?_, ?_, ?_⟩
  · simp only [overallStats]
    exact (List.countP_eq_length_filter _ _).symm
  · simp only [overallStats]
    exact (List.countP_eq_length_filter _ _).symm
  · simp only [overallStats]
    by_cases h : rs.length = 0 <;> simp [h, List.countP_eq_length_filter]
  · simp only [overallStats, sumPnl]
    rw [List.sum_eq_foldl, List.foldl_map]
  · simp only [overallStats, sumPnl]

/-! ## C7: the count invariant -/

/-- C7: wins + losses = total for every record set, because pnl ≤ 0 is the
exact complement of pnl > 0. -/
theorem c7_count_invariant (rs : List Trade) :
    (overallStats rs).wins + (overallStats rs).losses = (overallStats rs).total := by
  have hpred : (fun t : Trade => decide (t.pnl ≤ 0))
      = fun t => decide (¬(fun t : Trade => decide (0 < t.pnl)) t = true) := by
    funext t
    rw [decide_eq_decide]
    simp [not_lt]
  simp only [overallStats]
  rw [← List.countP_eq_length_filter, ← List.countP_eq_length_filter, hpred,
    ← List.length_eq_countP_add_countP]

/-! ## C8: load atomicity -/

theorem loadData_eq_none_of_fail :
    ∀ rows : List RawRow, (∃ r ∈ rows, parseRow r = none) → loadData rows = none := by
  intro rows h
  induction rows with
  | nil => simp at h
  | cons a rest ih =>
    obtain ⟨r, hmem, hfail⟩ := h
    rcases List.mem_cons.mp hmem with rfl | hm
    · simp only [loadData, hfail]
    · have hrest := ih ⟨r, hm, hfail⟩
      cases hp : parseRow a <;> simp [loadData, hrest, hp]

/-- C8: if any row's P&L (or timestamp) fails to clean, the load produces
no record set at all and the journal state is unchanged. -/
theorem c8_load_atomic (rows : List RawRow) (j : Journal)
    (h : ∃ r ∈ rows, parseRow r = none) :
    loadData rows = none ∧ loadJournal j rows = j := by
  have h1 := loadData_eq_none_of_fail rows h
  refine ⟨h1, ?_⟩
  simp [loadJournal, h1]

/-- Witness for C8 at the concrete failing row. -/
theorem c8_load_atomic_witness :
    loadData [c8row] = none ∧ loadJournal initJournal [c8row] = initJournal :=
  c8_load_atomic [c8row] initJournal ⟨c8row, List.mem_singleton_self c8row, by decide⟩

/-! ## C9: the uninitialized-state guard -/

/-- C9: every aggregation/reporting operation raises the
uninitialized-state error exactly when no successful load has happened
(`df = none`); a fresh journal starts unloaded, and after `load` the state
is unloaded only if the load itself failed on an unloaded journal. -/
theorem c9_uninitialized_guard (j : Journal) (rows : List RawRow) :
    (printSummaryJ j = .error .uninitialized ↔ j.df = none)
    ∧ (printStatsJ j = .error .uninitialized ↔ j.df = none)
    ∧ (plotCumulativeJ j = .error .uninitialized ↔ j.df = none)
    ∧ (tradeSizeSummaryJ j = .error .uninitialized ↔ j.df = none)
    ∧ (monthlySummaryJ j = .error .uninitialized ↔ j.df = none)
    ∧ (bestDaysJ j 5 = .error .uninitialized ↔ j.df = none)
    ∧ (pairsJ j = .error .uninitialized ↔ j.df = none)
    ∧ ((loadJournal j rows).df = none ↔ loadData rows = none ∧ j.df = none)
    ∧ initJournal.df = none := by
  obtain ⟨df⟩ := j
  cases df <;> cases hld : loadData rows <;>
    simp [printSummaryJ, printStatsJ, plotCumulativeJ, tradeSizeSummaryJ, monthlySummaryJ,
      bestDaysJ, pairsJ, require, loadJournal, initJournal, hld, Except.map]

/-! ## C10: the frame property of the aggregations -/

/-- C10: on a loaded journal every aggregation returns the state unchanged
except `best_performing_days`, which only adds the derived `'Exit Date'`
column: a pure projection of `exit_time` that changes no other field and
neither adds nor removes records. -/
theorem c10_frame (rs : List Trade) (n : Nat) :
    printSummaryJ { df := some rs } = .ok ((), { df := some rs })
    ∧ printStatsJ { df := some rs } = .ok (overallStats rs, { df := some rs })
    ∧ plotCumulativeJ { df := some rs } = .ok (cumulativeSeries rs, { df := some rs })
    ∧ tradeSizeSummaryJ { df := some rs } = .ok (tradeSizeSummary rs, { df := some rs })
    ∧ monthlySummaryJ { df := some rs } = .ok (monthlyPerformanceSummary rs, { df := some rs })
    ∧ pairsJ { df := some rs } = .ok (mostProfitablePairs rs, { df := some rs })
    ∧ bestDaysJ { df := some rs } n
        = .ok (bestPerformingDays rs n, { df := some (rs.map setExitDate) })
    ∧ (rs.map setExitDate).map Trade.pnl = rs.map Trade.pnl
    ∧ (rs.map setExitDate).map Trade.entryTime = rs.map Trade.entryTime
    ∧ (rs.map setExitDate).map Trade.exitTime = rs.map Trade.exitTime
    ∧ (rs.map setExitDate).map Trade.size = rs.map Trade.size
    ∧ (rs.map setExitDate).map Trade.symbol = rs.map Trade.symbol
    ∧ (rs.map setExitDate).length = rs.length
    ∧ (rs.map setExitDate).map Trade.exitDate = rs.map (fun t => some (dateOf t.exitTime)) := by
  refine ⟨rfl, rfl, rfl, rfl, rfl, rfl, rfl, ?_, ?_, ?_, ?_, ?_, by simp, ?_⟩ <;>
    simp [setExitDate, List.map_map, Function.comp]

/-! ## Sorting lemmas

pandas `groupby(sort=True)` lists keys ascending and `sort_values` then
reorders by value; a stable descending-by-value sort of a strictly
key-ascending list is lexicographically sorted (value descending, key
ascending), and a stable sort leaves the relative order of equal-key
elements unchanged. -/

theorem orderedInsert_pairwise_lex {α : Type} (r : α → α → Prop) [DecidableRel r]
    (val : α → ℚ) (s : α → α → Prop) (hr : ∀ x y, r x y ↔ val y ≤ val x) (a : α)
    (M : List α) (hsort : M.Pairwise r)
    (hlex : M.Pairwise (fun x y => val y < val x ∨ (val x = val y ∧ s x y)))
    (ha : ∀ b ∈ M, s a b) :
    (List.orderedInsert r a M).Pairwise
      (fun x y => val y < val x ∨ (val x = val y ∧ s x y)) := by
  induction M with
  | nil => simp
  | cons b M ih =>
    simp only [List.orderedInsert]
    by_cases hab : r a b
    · rw [if_pos hab]
      refine List.Pairwise.cons ?_ hlex
      intro c hc
      have hcb : val c ≤ val b := by
        rcases List.mem_cons.mp hc with rfl | hcM
        · exact le_refl _
        · exact (hr b c).mp (List.rel_of_pairwise_cons hsort hcM)
      have hca : val c ≤ val a := le_trans hcb ((hr a b).mp hab)
      rcases lt_or_eq_of_le hca with hlt | heq
      · exact Or.inl hlt
      · exact Or.inr ⟨heq.symm, ha c hc⟩
    · rw [if_neg hab]
      refine List.Pairwise.cons ?_
        (ih hsort.of_cons hlex.of_cons (fun c hc => ha c (List.mem_cons_of_mem b hc)))
      intro c hc
      rcases (List.mem_orderedInsert r).mp hc with hca | hcM
      · have hba : val a < val b := lt_of_not_le (fun hle => hab ((hr a b).mpr hle))
        rw [hca]
        exact Or.inl hba
      · exact List.rel_of_pairwise_cons hlex hcM

theorem insertionSort_pairwise_lex {α : Type} (r : α → α → Prop) [DecidableRel r]
    (val : α → ℚ) (s : α → α → Prop) (hr : ∀ x y, r x y ↔ val y ≤ val x)
    (L : List α) (hL : L.Pairwise s) :
    (List.insertionSort r L).Pairwise
      (fun x y => val y < val x ∨ (val x = val y ∧ s x y)) := by
  haveI : IsTotal α r := ⟨fun x y => by rw [hr, hr]; exact le_total _ _⟩
  haveI : IsTrans α r := ⟨fun x y z hxy hyz => by
    rw [hr] at hxy hyz ⊢
    exact le_trans hyz hxy⟩
  induction L with
  | nil => simp
  | cons a L ih =>
    simp only [List.insertionSort]
    refine orderedInsert_pairwise_lex r val s hr a _ (List.sorted_insertionSort r L)
      (ih hL.of_cons) ?_
    intro b hb
    rw [List.mem_insertionSort] at hb
    exact List.rel_of_pairwise_cons hL hb

theorem filter_orderedInsert_of_false {α : Type} (r : α → α → Prop) [DecidableRel r]
    (p : α → Bool) (a : α) (hpa : p a = false) (l : List α) :
    (List.orderedInsert r a l).filter p = l.filter p := by
  induction l with
  | nil => simp [hpa]
  | cons b l ih =>
    simp only [List.orderedInsert]
    by_cases hab : r a b
    · rw [if_pos hab]
      simp [List.filter_cons, hpa]
    · rw [if_neg hab]
      simp [List.filter_cons, ih]

theorem filter_orderedInsert_of_true {α : Type} (r : α → α → Prop) [DecidableRel r]
    (p : α → Bool) (a : α) (hpa : p a = true)
    (hcond : ∀ b, ¬r a b → p b = false) (l : List α) :
    (List.orderedInsert r a l).filter p = a :: l.filter p := by
  induction l with
  | nil => simp [hpa]
  | cons b l ih =>
    simp only [List.orderedInsert]
    by_cases hab : r a b
    · rw [if_pos hab]
      simp [List.filter_cons, hpa]
    · rw [if_neg hab]
      simp [List.filter_cons, hcond b hab, ih]

theorem filter_insertionSort_stable {α : Type} (r : α → α → Prop) [DecidableRel r]
    (p : α → Bool) (hcond : ∀ a b, p a = true → ¬r a b → p b = false) (l : List α) :
    (List.insertionSort r l).filter p = l.filter p := by
  induction l with
  | nil => rfl
  | cons a l ih =>
    simp only [List.insertionSort]
    cases hpa : p a
    · rw [filter_orderedInsert_of_false r p a hpa, ih]
      simp [List.filter_cons, hpa]
    · rw [filter_orderedInsert_of_true r p a hpa (fun b => hcond a b hpa), ih]
      simp [List.filter_cons, hpa]

/-- `groupby(sort=True)` output is strictly ascending in the key. -/
theorem groupSum_pairwise_keyLt {K : Type} [LinearOrder K] [DecidableEq K] (key : Trade → K)
    (rs : List Trade) :
    (groupSum key rs).Pairwise (fun x y => x.1 < y.1) := by
  have hnodup : (sortedKeys (rs.map key)).Nodup :=
    ((List.perm_insertionSort _ _).nodup_iff).mpr (List.nodup_dedup (rs.map key))
  have hsorted : (sortedKeys (rs.map key)).Sorted (· ≤ ·) :=
    List.sorted_insertionSort _ _
  exact List.pairwise_map.mpr (hsorted.lt_of_le hnodup)

/-! ## C3: the instrument ranking -/

/-- C3 (amended): `pair_ranking` covers each distinct symbol exactly once,
paired with the total pnl of that symbol's records, ordered descending by
total with ties broken by symbol ascending (the groupby key order). -/
theorem c3_pair_ranking (rs : List Trade) :
    mostProfitablePairs rs
      ~ (rs.map Trade.symbol).dedup.map
          (fun s => (s, sumPnl (rs.filter (fun t => decide (t.symbol = s)))))
    ∧ (mostProfitablePairs rs).Pairwise
        (fun x y => y.2 < x.2 ∨ (x.2 = y.2 ∧ x.1 < y.1)) := by
  constructor
  · exact (List.perm_insertionSort _ _).trans ((List.perm_insertionSort _ _).map _)
  · exact insertionSort_pairwise_lex descVal Prod.snd (fun x y => x.1 < y.1)
      (fun x y => Iff.rfl) _ (groupSum_pairwise_keyLt Trade.symbol rs)

/-- C3 counterexample: with records whose symbols first appear in the
order B, A and whose totals tie, the code ranks A before B (the ascending
key order of the groupby), while the claim's first-seen tie-break
predicts B before A. -/
theorem c3_counterexample :
    (mostProfitablePairs c3rs).map Prod.fst = ["A", "B"]
    ∧ (pairRankingSpec c3rs).map Prod.fst = ["B", "A"]
    ∧ mostProfitablePairs c3rs ≠ pairRankingSpec c3rs := by
  have hfA : c3rs.filter (fun t => decide (t.symbol = "A")) = [c3trade "A"] := by decide
  have hfB : c3rs.filter (fun t => decide (t.symbol = "B")) = [c3trade "B"] := by decide
  have hBA : ¬(("B" : String) ≤ "A") := by
    simp
    decide
  have hk : sortedKeys (c3rs.map Trade.symbol) = ["A", "B"] := by
    simp [sortedKeys, c3rs, c3trade, List.insertionSort, List.orderedInsert, hBA]
  have hg : groupSum Trade.symbol c3rs = [("A", 1), ("B", 1)] := by
    simp only [groupSum, hk, List.map_cons, List.map_nil, hfA, hfB]
    simp [sumPnl, c3trade]
  have h1 : mostProfitablePairs c3rs = [("A", 1), ("B", 1)] := by
    simp only [mostProfitablePairs, hg]
    simp [List.insertionSort, List.orderedInsert, descVal]
  have hfs : firstSeenKeys (c3rs.map Trade.symbol) = ["B", "A"] := by
    simp [c3rs, c3trade, firstSeenKeys]
  have h2 : pairRankingSpec c3rs = [("B", 1), ("A", 1)] := by
    simp only [pairRankingSpec, hfs, List.map_cons, List.map_nil, hfA, hfB]
    simp [sumPnl, c3trade, List.insertionSort, List.orderedInsert, descVal]
  refine ⟨by rw [h1]; rfl, by rw [h2]; rfl, ?_⟩
  rw [h1, h2]
  intro h
  injection h with hhead _
  injection hhead with hs _
  exact absurd hs (by decide)

/-! ## C4: the best-days ranking -/

/-- C4: `best_days` groups by the calendar date of `exit_time`, sums pnl
per day, sorts descending by daily total with ties broken by date
ascending, and keeps the first `top_n` entries, so its length is
`min top_n (number of distinct days)`; together with the dropped remainder
it is exactly the per-day totals, one entry per distinct day. -/
theorem c4_best_days (rs : List Trade) (n : Nat) :
    (bestPerformingDays rs n).length
        = min n ((rs.map (fun t => dateOf t.exitTime)).dedup).length
    ∧ (bestPerformingDays rs n).Pairwise
        (fun x y => y.2 < x.2 ∨ (x.2 = y.2 ∧ x.1 < y.1))
    ∧ ∃ rest : List (Nat × ℚ),
        bestPerformingDays rs n ++ rest
          ~ (rs.map (fun t => dateOf t.exitTime)).dedup.map
              (fun d => (d, sumPnl (rs.filter (fun t => decide (dateOf t.exitTime = d))))) := by
  refine ⟨?_, ?_, ?_⟩
  · simp [bestPerformingDays, groupSum, sortedKeys]
  · exact (insertionSort_pairwise_lex descVal Prod.snd (fun x y => x.1 < y.1)
      (fun x y => Iff.rfl) _ (groupSum_pairwise_keyLt (fun t => dateOf t.exitTime) rs)).sublist
      (List.take_sublist _ _)
  · refine ⟨(List.insertionSort descVal (groupSum (fun t => dateOf t.exitTime) rs)).drop n, ?_⟩
    rw [bestPerformingDays, List.take_append_drop]
    exact (List.perm_insertionSort _ _).trans ((List.perm_insertionSort _ _).map _)

/-! ## C6: the cumulative series -/

theorem withCumsum_map_fst (acc : ℚ) (l : List Trade) :
    (withCumsum acc l).map Prod.fst = l.map (fun t => t.exitTime) := by
  induction l generalizing acc with
  | nil => rfl
  | cons t ts ih => simp [withCumsum, ih]

theorem withCumsum_map_snd (acc : ℚ) (l : List Trade) :
    (withCumsum acc l).map Prod.snd
      = (List.range l.length).map (fun i => acc + sumPnl (l.take (i + 1))) := by
  induction l generalizing acc with
  | nil => rfl
  | cons t ts ih =>
    have hfun : ((fun i => acc + sumPnl ((t :: ts).take (i + 1))) ∘ Nat.succ)
        = fun i => (acc + t.pnl) + sumPnl (ts.take (i + 1)) := by
      funext i
      simp [Function.comp, sumPnl, List.take_succ_cons, add_assoc]
    simp only [withCumsum, List.map_cons, ih, List.length_cons, List.range_succ_eq_map,
      List.map_map, hfun]
    simp [sumPnl]

/-- C6: the cumulative series first sorts the records by exit time with a
stable sort — a permutation of the record set in which records with equal
exit time keep their original relative order — and then takes the running
sum of pnl in that order, so the exit times of the series are
non-decreasing. -/
theorem c6_cumulative_series (rs : List Trade) (k : Nat) :
    sortByExit rs ~ rs
    ∧ (sortByExit rs).filter (fun t => decide (tsKey t.exitTime = k))
        = rs.filter (fun t => decide (tsKey t.exitTime = k))
    ∧ ((cumulativeSeries rs).map Prod.fst).Pairwise (fun a b => tsKey a ≤ tsKey b)
    ∧ (cumulativeSeries rs).map Prod.snd
        = (List.range rs.length).map (fun i => sumPnl ((sortByExit rs).take (i + 1))) := by
  refine ⟨List.perm_insertionSort _ _, ?_, ?_, ?_⟩
  · refine filter_insertionSort_stable exitLe _ ?_ rs
    intro a b hpa hr
    have hk : tsKey a.exitTime = k := of_decide_eq_true hpa
    have hlt : tsKey b.exitTime < tsKey a.exitTime := Nat.lt_of_not_le hr
    exact decide_eq_false (by omega)
  · simp only [cumulativeSeries, withCumsum_map_fst]
    rw [List.pairwise_map]
    exact List.sorted_insertionSort exitLe rs
  · simp only [cumulativeSeries, withCumsum_map_snd]
    simp [sortByExit, zero_add]

/-! ## C2: the cleanup round trip -/

theorem data_mk (l : List Char) : (String.mk l).data = l := rfl

theorem digitVal_digitChar {d : Nat} (h : d < 10) : digitVal (digitChar d) = d := by
  interval_cases d <;> rfl

theorem isDig_digitChar {d : Nat} (h : d < 10) : isDig (digitChar d) = true := by
  interval_cases d <;> rfl

theorem ne_of_isDig {c : Char} (h : isDig c = true) :
    c ≠ '$' ∧ c ≠ ',' ∧ c ≠ '.' ∧ c ≠ '-' ∧ c ≠ '+' := by
  obtain ⟨h1, h2⟩ : 48 ≤ c.toNat ∧ c.toNat ≤ 57 := of_decide_eq_true h
  refine ⟨?_, ?_, ?_, ?_, ?_⟩ <;> (intro hcc; rw [hcc] at h1; exact absurd h1 (by decide))

theorem digitsNat_append (a : List Char) (c : Char) :
    digitsNat (a ++ [c]) = digitsNat a * 10 + digitVal c := by
  simp [digitsNat, List.foldl_append]

theorem digitsNat_natDigits (n : Nat) : digitsNat (natDigits n) = n := by
  induction n using Nat.strong_induction_on with
  | _ n ih =>
    rw [natDigits]
    split
    · next h => simp [digitsNat, digitVal_digitChar h]
    · next h =>
      rw [digitsNat_append, ih (n / 10) (Nat.div_lt_self (by omega) (by omega)),
        digitVal_digitChar (Nat.mod_lt n (by omega))]
      omega

theorem natDigits_all_isDig (n : Nat) : ∀ c ∈ natDigits n, isDig c = true := by
  induction n using Nat.strong_induction_on with
  | _ n ih =>
    rw [natDigits]
    split
    · next h =>
      intro c hc
      rw [List.mem_singleton] at hc
      rw [hc]
      exact isDig_digitChar h
    · next h =>
      intro c hc
      rcases List.mem_append.mp hc with hc | hc
      · exact ih (n / 10) (Nat.div_lt_self (by omega) (by omega)) c hc
      · rw [List.mem_singleton] at hc
        rw [hc]
        exact isDig_digitChar (Nat.mod_lt n (by omega))

theorem natDigits_ne_nil (n : Nat) : natDigits n ≠ [] := by
  rw [natDigits]
  split <;> simp

theorem twoDigits_all_isDig {c : Nat} (h : c < 100) :
    ∀ x ∈ twoDigits c, isDig x = true := by
  intro x hx
  rcases List.mem_cons.mp hx with hx | hx
  · rw [hx]
    exact isDig_digitChar (by omega)
  · rw [List.mem_singleton] at hx
    rw [hx]
    exact isDig_digitChar (Nat.mod_lt _ (by omega))

theorem digitsNat_twoDigits {c : Nat} (h : c < 100) : digitsNat (twoDigits c) = c := by
  have h1 : c / 10 < 10 := by omega
  simp [digitsNat, twoDigits, digitVal_digitChar h1,
    digitVal_digitChar (Nat.mod_lt c (by omega))]
  omega

theorem fracVal_twoDigits {c : Nat} (h : c < 100) : fracVal (twoDigits c) = (c : ℚ) / 100 := by
  rw [fracVal, digitsNat_twoDigits h]
  norm_num [twoDigits]

theorem mem_chunk3 (ds : List Char) (c : Char) (hc : c ∈ chunk3 ds) : c ∈ ds ∨ c = ',' := by
  induction ds using chunk3.induct with
  | case1 ds hle =>
    rw [chunk3, dif_pos hle] at hc
    exact Or.inl hc
  | case2 ds hgt ih =>
    rw [chunk3, dif_neg hgt] at hc
    rcases List.mem_append.mp hc with hc | hc
    · exact Or.inl (List.take_subset _ _ hc)
    · rcases List.mem_cons.mp hc with hc | hc
      · exact Or.inr hc
      · rcases ih hc with hin | hcomma
        · exact Or.inl (List.drop_subset _ _ hin)
        · exact Or.inr hcomma

theorem chunk3_filter (ds : List Char) (h : ∀ c ∈ ds, c ≠ ',') :
    (chunk3 ds).filter (fun c => decide (c ≠ ',')) = ds := by
  induction ds using chunk3.induct with
  | case1 ds hle =>
    rw [chunk3, dif_pos hle]
    exact List.filter_eq_self.mpr (fun c hc => decide_eq_true (h c hc))
  | case2 ds hgt ih =>
    have htake : (ds.take 3).filter (fun c => decide (c ≠ ',')) = ds.take 3 :=
      List.filter_eq_self.mpr (fun c hc => decide_eq_true (h c (List.take_subset _ _ hc)))
    have hdrop := ih (fun c hc => h c (List.drop_subset _ _ hc))
    rw [chunk3, dif_neg hgt, List.filter_append, htake, List.filter_cons,
      if_neg (by decide), hdrop, List.take_append_drop]

theorem filter_reverse_eq {α : Type} (p : α → Bool) (l : List α) :
    l.reverse.filter p = (l.filter p).reverse := by
  induction l with
  | nil => rfl
  | cons a l ih =>
    rw [List.reverse_cons, List.filter_append, ih, List.filter_cons]
    cases hpa : p a <;> simp [hpa]

theorem mem_groupCommas {ds : List Char} {c : Char} (hc : c ∈ groupCommas ds) :
    c ∈ ds ∨ c = ',' := by
  rw [groupCommas, List.mem_reverse] at hc
  rcases mem_chunk3 _ _ hc with h | h
  · exact Or.inl (List.mem_reverse.mp h)
  · exact Or.inr h

theorem groupCommas_filter (ds : List Char) (h : ∀ c ∈ ds, c ≠ ',') :
    (groupCommas ds).filter (fun c => decide (c ≠ ',')) = ds := by
  rw [groupCommas, filter_reverse_eq,
    chunk3_filter _ (fun c hc => h c (List.mem_reverse.mp hc)), List.reverse_reverse]

theorem takeWhile_append_of_all {p : Char → Bool} (a : List Char) (b : Char) (rest : List Char)
    (ha : ∀ c ∈ a, p c = true) (hb : p b = false) :
    (a ++ b :: rest).takeWhile p = a := by
  induction a with
  | nil => simp [List.takeWhile_cons, hb]
  | cons x xs ih =>
    have hx : p x = true := ha x (by simp)
    simp [List.takeWhile_cons, hx, ih (fun c hc => ha c (by simp [hc]))]

theorem dropWhile_append_of_all {p : Char → Bool} (a : List Char) (b : Char) (rest : List Char)
    (ha : ∀ c ∈ a, p c = true) (hb : p b = false) :
    (a ++ b :: rest).dropWhile p = b :: rest := by
  induction a with
  | nil => simp [List.dropWhile_cons, hb]
  | cons x xs ih =>
    have hx : p x = true := ha x (by simp)
    simp [List.dropWhile_cons, hx, ih (fun c hc => ha c (by simp [hc]))]

theorem pyUnsigned_digits_core (D C : Nat) (hC : C < 100) :
    pyUnsigned (natDigits D ++ '.' :: twoDigits C) = some ((D : ℚ) + (C : ℚ) / 100) := by
  have hds := natDigits_all_isDig D
  have htw := twoDigits_all_isDig hC
  have hdot : isDig '.' = false := by decide
  have htake : (natDigits D ++ '.' :: twoDigits C).takeWhile isDig = natDigits D :=
    takeWhile_append_of_all _ _ _ hds hdot
  have hdrop : (natDigits D ++ '.' :: twoDigits C).dropWhile isDig = '.' :: twoDigits C :=
    dropWhile_append_of_all _ _ _ hds hdot
  simp only [pyUnsigned, htake, hdrop]
  rw [if_pos ⟨trivial, List.all_eq_true.mpr htw, fun hni =>
    natDigits_ne_nil D (List.isEmpty_iff.mp hni.1)⟩]
  rw [digitsNat_natDigits, fracVal_twoDigits hC]

theorem pyFloat_of_digits (D C : Nat) (hC : C < 100) :
    pyFloat (natDigits D ++ '.' :: twoDigits C) = some ((D : ℚ) + (C : ℚ) / 100) := by
  obtain ⟨d, ds', hds'⟩ := List.exists_cons_of_ne_nil (natDigits_ne_nil D)
  have hd : isDig d = true := natDigits_all_isDig D d (by rw [hds']; simp)
  rw [hds', List.cons_append]
  simp only [pyFloat]
  rw [if_neg (ne_of_isDig hd).2.2.2.1, if_neg (ne_of_isDig hd).2.2.2.2,
    ← List.cons_append, ← hds']
  exact pyUnsigned_digits_core D C hC

theorem pyFloat_neg_digits (D C : Nat) (hC : C < 100) :
    pyFloat ('-' :: (natDigits D ++ '.' :: twoDigits C))
      = some (-((D : ℚ) + (C : ℚ) / 100)) := by
  simp only [pyFloat]
  rw [if_pos trivial, pyUnsigned_digits_core D C hC]
  rfl

theorem div_mod_cast_val (n : Nat) :
    ((n / 100 : ℕ) : ℚ) + ((n % 100 : ℕ) : ℚ) / 100 = (n : ℚ) / 100 := by
  have h2 : ((n : ℚ)) = 100 * ((n / 100 : ℕ) : ℚ) + ((n % 100 : ℕ) : ℚ) := by
    exact_mod_cast (Nat.div_add_mod n 100).symm
  rw [h2]
  ring

/-- C2: rendering an amount of `v` cents as `"$"` followed by the
comma-grouped decimal representation and applying the loader's cleaning
step recovers exactly `v/100` — exact over ℚ, hence within any
floating-point tolerance. -/
theorem c2_roundtrip_cleanup (v : ℤ) :
    cleanPnl (formatDollar v) = some ((v : ℚ) / 100) := by
  have hC : v.natAbs % 100 < 100 := Nat.mod_lt _ (by omega)
  have hds := natDigits_all_isDig (v.natAbs / 100)
  have htw := twoDigits_all_isDig hC
  have hgcD : (groupCommas (natDigits (v.natAbs / 100))).filter (fun c => decide (c ≠ '$'))
      = groupCommas (natDigits (v.natAbs / 100)) := by
    refine List.filter_eq_self.mpr (fun c hc => decide_eq_true ?_)
    rcases mem_groupCommas hc with h | h
    · exact (ne_of_isDig (hds c h)).1
    · rw [h]
      decide
  have htdD : (twoDigits (v.natAbs % 100)).filter (fun c => decide (c ≠ '$'))
      = twoDigits (v.natAbs % 100) :=
    List.filter_eq_self.mpr (fun c hc => decide_eq_true (ne_of_isDig (htw c hc)).1)
  have hgcC : (groupCommas (natDigits (v.natAbs / 100))).filter (fun c => decide (c ≠ ','))
      = natDigits (v.natAbs / 100) :=
    groupCommas_filter _ (fun c hc => (ne_of_isDig (hds c hc)).2.1)
  have htdC : (twoDigits (v.natAbs % 100)).filter (fun c => decide (c ≠ ','))
      = twoDigits (v.natAbs % 100) :=
    List.filter_eq_self.mpr (fun c hc => decide_eq_true (ne_of_isDig (htw c hc)).2.1)
  rcases lt_or_le v 0 with hv | hv
  · have h0 : (v.natAbs : ℤ) = -v := Int.ofNat_natAbs_of_nonpos (le_of_lt hv)
    have hvq : ((v.natAbs : ℚ)) = -(v : ℚ) := by
      rw [show ((v.natAbs : ℚ)) = ((v.natAbs : ℤ) : ℚ) from (Int.cast_natCast _).symm, h0,
        Int.cast_neg]
    have hinner : ('$' :: '-' :: (groupCommas (natDigits (v.natAbs / 100))
          ++ '.' :: twoDigits (v.natAbs % 100))).filter (fun c => decide (c ≠ '$'))
        = '-' :: (groupCommas (natDigits (v.natAbs / 100))
          ++ '.' :: twoDigits (v.natAbs % 100)) := by
      rw [List.filter_cons, if_neg (by decide), List.filter_cons, if_pos (by decide),
        List.filter_append, hgcD, List.filter_cons, if_pos (by decide), htdD]
    have houter : ('-' :: (groupCommas (natDigits (v.natAbs / 100))
          ++ '.' :: twoDigits (v.natAbs % 100))).filter (fun c => decide (c ≠ ','))
        = '-' :: (natDigits (v.natAbs / 100) ++ '.' :: twoDigits (v.natAbs % 100)) := by
      rw [List.filter_cons, if_pos (by decide), List.filter_append, hgcC,
        List.filter_cons, if_pos (by decide), htdC]
    simp only [formatDollar, if_pos hv, cleanPnl, data_mk, List.cons_append, List.nil_append]
    rw [hinner, houter, pyFloat_neg_digits _ _ hC, div_mod_cast_val, hvq]
    rw [Option.some.injEq]
    ring
  · have h0 : (v.natAbs : ℤ) = v := Int.natAbs_of_nonneg hv
    have hvq : ((v.natAbs : ℚ)) = (v : ℚ) := by
      rw [show ((v.natAbs : ℚ)) = ((v.natAbs : ℤ) : ℚ) from (Int.cast_natCast _).symm, h0]
    have hinner : ('$' :: (groupCommas (natDigits (v.natAbs / 100))
          ++ '.' :: twoDigits (v.natAbs % 100))).filter (fun c => decide (c ≠ '$'))
        = groupCommas (natDigits (v.natAbs / 100)) ++ '.' :: twoDigits (v.natAbs % 100) := by
      rw [List.filter_cons, if_neg (by decide), List.filter_append, hgcD,
        List.filter_cons, if_pos (by decide), htdD]
    have houter : (groupCommas (natDigits (v.natAbs / 100))
          ++ '.' :: twoDigits (v.natAbs % 100)).filter (fun c => decide (c ≠ ','))
        = natDigits (v.natAbs / 100) ++ '.' :: twoDigits (v.natAbs % 100) := by
      rw [List.filter_append, hgcC, List.filter_cons, if_pos (by decide), htdC]
    simp only [formatDollar, if_neg (not_lt.mpr hv), cleanPnl, data_mk, List.cons_append,
      List.nil_append]
    rw [hinner, houter, pyFloat_of_digits _ _ hC, div_mod_cast_val, hvq]

end TradeJournal
